import Mathlib

/-!
Verification development for `_make_dataset.py` (wheat-head synthetic
dataset generator).

The Python source is shallowly embedded: tensors over booleans become
`ℕ → ℕ → Bool` planes with explicit height/width bounds, images become
integer-valued pixel functions, library calls (`torchvision.ops.masks_to_boxes`,
`skimage.measure.label`, `np.unique`, `np.random.randint`) are embedded by
their documented semantics, and the randomized / rotated quantities of
`ForegroundObject.random_place` and `synthesize` are passed as explicit
parameters.
-/

/-- A pixel position `(row, column)`. -/
abbrev Pix := ℕ × ℕ

/-- A boolean mask plane, indexed `mask row column`; meaningful inside an
explicit `H × W` extent. -/
abbrev Mask := ℕ → ℕ → Bool

/-- All in-bounds pixels of an `H × W` plane in raster (row-major) order,
as numpy / skimage enumerate them. -/
def rasterPix (H W : ℕ) : List Pix :=
  (List.range (H * W)).map (fun i => (i / W, i % W))

/-- Raster index of a pixel in an `H × W` plane. -/
def rIdx (W : ℕ) (p : Pix) : ℕ := W * p.1 + p.2

/-- The in-bounds grid as a finset. -/
def gridF (H W : ℕ) : Finset Pix := Finset.range H ×ˢ Finset.range W

/-- A pixel is foreground: in bounds and true in the mask. -/
def fgP (m : Mask) (H W : ℕ) (p : Pix) : Prop :=
  p.1 < H ∧ p.2 < W ∧ m p.1 p.2 = true

instance (m : Mask) (H W : ℕ) (p : Pix) : Decidable (fgP m H W p) := by
  unfold fgP; infer_instance

/-- Bounding box as produced by `get_bbox` (lines 44-55): the dict
`{top, bottom, left, right}`.  `torchvision.ops.masks_to_boxes` returns
`(min x, min y, max x, max y)` over the true pixels, so `right` and
`bottom` are the *inclusive* maximal column / row indices. -/
structure BBox where
  top : ℕ
  bottom : ℕ
  left : ℕ
  right : ℕ
deriving DecidableEq, Repr

/-- The in-bounds true pixels of a mask, in raster order
(`torch.where(mask != 0)` enumeration order). -/
def truePixels (m : Mask) (H W : ℕ) : List Pix :=
  (rasterPix H W).filter (fun p => m p.1 p.2)

/-- `get_bbox` (lines 44-55) on a single mask plane:
`torchvision.ops.masks_to_boxes` takes min/max of the row and column
indices of the true pixels (`left = min x`, `top = min y`,
`right = max x`, `bottom = max y`, all inclusive) and errors on a mask
with no true pixel (modelled by `none`). -/
def get_bbox (m : Mask) (H W : ℕ) : Option BBox :=
  match truePixels m H W with
  | [] => none
  | p :: ps =>
      some { top := ps.foldl (fun a q => min a q.1) p.1
             bottom := ps.foldl (fun a q => max a q.1) p.1
             left := ps.foldl (fun a q => min a q.2) p.2
             right := ps.foldl (fun a q => max a q.2) p.2 }

/-- `bbox_to_pascal_voc` (lines 57-60): `(x_min, y_min, x_max, y_max)`. -/
def bbox_to_pascal_voc (b : BBox) : ℕ × ℕ × ℕ × ℕ :=
  (b.left, b.top, b.right, b.bottom)

/-- `bbox_to_coco` (lines 72-78): `(x_min, y_min, width, height)`. -/
def bbox_to_coco (b : BBox) : ℕ × ℕ × ℕ × ℕ :=
  (b.left, b.top, b.right - b.left, b.bottom - b.top)

/-- `bbox_to_albumentations` (lines 62-70): pascal_voc normalized by the
image dimensions (exact rational arithmetic models the float math). -/
def bbox_to_albumentations (b : BBox) (image_width image_height : ℚ) :
    ℚ × ℚ × ℚ × ℚ :=
  (b.left / image_width, b.top / image_height,
   b.right / image_width, b.bottom / image_height)

/-- `bbox_to_yolo` (lines 80-95): center/size form normalized by the image
dimensions. -/
def bbox_to_yolo (b : BBox) (image_width image_height : ℚ) :
    ℚ × ℚ × ℚ × ℚ :=
  let x_min : ℚ := b.left
  let y_min : ℚ := b.top
  let x_max : ℚ := b.right
  let y_max : ℚ := b.bottom
  ((1/2) * (x_min + x_max) / image_width,
   (1/2) * (y_min + y_max) / image_height,
   (x_max - x_min) / image_width,
   (y_max - y_min) / image_height)

/-! ## Connected components (`skimage.measure.label`)

`make_objectwise_mask` (lines 107-116) calls `skimage.measure.label` with
its default connectivity, which for a 2-D input is full (8-)connectivity.
The labeling is embedded by its documented semantics: background (false)
pixels get label 0, and each maximal 8-connected region of true pixels
gets a positive label, labels being assigned in order of the first raster
scan encounter of each region. -/

/-- 8-adjacency of two distinct pixels (both coordinates within distance 1). -/
def adjP (p q : Pix) : Prop :=
  p ≠ q ∧ (p.1 ≤ q.1 + 1 ∧ q.1 ≤ p.1 + 1) ∧ (p.2 ≤ q.2 + 1 ∧ q.2 ≤ p.2 + 1)

instance (p q : Pix) : Decidable (adjP p q) := by
  unfold adjP; infer_instance

/-- One step between 8-adjacent foreground pixels. -/
def stepP (m : Mask) (H W : ℕ) (a b : Pix) : Prop :=
  fgP m H W a ∧ fgP m H W b ∧ adjP a b

/-- Two pixels belong to the same 8-connected foreground region. -/
def Reaches (m : Mask) (H W : ℕ) : Pix → Pix → Prop :=
  Relation.ReflTransGen (stepP m H W)

/-- The foreground pixels of the grid, as a finset. -/
def goodF (m : Mask) (H W : ℕ) : Finset Pix :=
  (gridF H W).filter (fgP m H W)

/-- One expansion step of a set of pixels by foreground 8-adjacency. -/
def expand (m : Mask) (H W : ℕ) (S : Finset Pix) : Finset Pix :=
  (gridF H W).filter (fun q => fgP m H W q ∧ (q ∈ S ∨ ∃ r ∈ S, adjP r q))

/-- Iterate `expand` with early exit on a fixed point. -/
def compIter (m : Mask) (H W : ℕ) : ℕ → Finset Pix → Finset Pix
  | 0, S => S
  | n + 1, S =>
      let S' := expand m H W S
      if S' = S then S else compIter m H W n S'

/-- The 8-connected foreground region containing `p` (empty if `p` is not
foreground), computed by saturating `expand`. -/
def reachSet (m : Mask) (H W : ℕ) (p : Pix) : Finset Pix :=
  if fgP m H W p then compIter m H W (H * W) {p} else ∅

/-- A pixel is the first raster-scan pixel of its 8-connected foreground
region: `skimage.measure.label` starts a new label exactly at such pixels. -/
def isRep (m : Mask) (H W : ℕ) (p : Pix) : Prop :=
  fgP m H W p ∧
    ∀ q ∈ rasterPix H W, rIdx W q < rIdx W p → p ∉ reachSet m H W q

instance (m : Mask) (H W : ℕ) (p : Pix) : Decidable (isRep m H W p) := by
  unfold isRep; infer_instance

/-- The first-encounter pixels of the regions, in raster order; region `i`
(0-based) receives label `i + 1` in `skimage.measure.label`. -/
def reps (m : Mask) (H W : ℕ) : List Pix :=
  (rasterPix H W).filter (fun p => decide (isRep m H W p))

/-- Helper of `labelOf`: walk the representative list, returning the label
counter `k` at the first representative whose region contains `p`. -/
def labelIn (m : Mask) (H W : ℕ) (p : Pix) : List Pix → ℕ → ℕ
  | [], _ => 0
  | r :: rs, k =>
      if p ∈ reachSet m H W r then k else labelIn m H W p rs (k + 1)

/-- The label array produced by `skimage.measure.label` on the plane
(line 112): 0 on background, `i + 1` on the region discovered `i`-th in
raster order. -/
def labelOf (m : Mask) (H W : ℕ) (p : Pix) : ℕ :=
  if fgP m H W p then labelIn m H W p (reps m H W) 1 else 0

/-- `np.unique(labels)` (line 113): the sorted distinct values taken by the
label array over the plane. -/
def presentLabels (m : Mask) (H W : ℕ) : List ℕ :=
  (List.range ((reps m H W).length + 1)).filter
    (fun v => decide (∃ p ∈ rasterPix H W, labelOf m H W p = v))

/-- `make_objectwise_mask` (lines 107-116) for one class plane: label the
connected components, take `np.unique(...)[1:]` (drop the *smallest*
distinct label value, intended as background 0), and emit one boolean mask
`labels == object_id` per remaining label, in ascending label order. -/
def make_objectwise_mask (m : Mask) (H W : ℕ) : List Mask :=
  ((presentLabels m H W).drop 1).map
    (fun v => fun r c => decide (labelOf m H W (r, c) = v))

/-- The classwise wrapper of lines 110-115: one entry per class id. -/
def make_objectwise_mask_all (cm : ℕ → Mask) (n_class H W : ℕ) :
    List (List Mask) :=
  (List.range n_class).map (fun i => make_objectwise_mask (cm i) H W)

/-- The decomposition of a plane's foreground into maximal 8-connected
blobs, as the spec's "k pairwise-disjoint blobs" reads on the embedded
plane: the blobs are nonempty, pairwise disjoint, pairwise non-adjacent,
internally connected sets of foreground pixels covering the foreground. -/
structure BlobDecomp (m : Mask) (H W : ℕ) (B : List (Finset Pix)) : Prop where
  fg_mem : ∀ b ∈ B, ∀ p ∈ b, fgP m H W p
  nonempty : ∀ b ∈ B, b.Nonempty
  cover : ∀ p : Pix, fgP m H W p → ∃ b ∈ B, p ∈ b
  conn : ∀ b ∈ B, ∀ p ∈ b, ∀ q ∈ b, Reaches m H W p q
  disj : B.Pairwise fun b b' => ∀ p ∈ b, p ∉ b'
  sep : B.Pairwise fun b b' => ∀ p ∈ b, ∀ q ∈ b', ¬ adjP p q

/-! ## Placement (`ForegroundObject.random_place`, lines 386-413)

The rotation (line 394, an opaque torchvision transform) and the two
`np.random.randint` draws are randomness external to the pasting logic;
the rotated crop, its size and the drawn offsets enter the embedding as
explicit parameters, while the offset *supports* are embedded below. -/

/-- A channel-first image tensor of shape `C × H × W`. -/
structure Img3 where
  C : ℕ
  H : ℕ
  W : ℕ
  data : ℕ → ℕ → ℕ → ℤ

/-- The masked paste of line 405:
`background[:, top:top+h, left:left+w][:, mask_cropped] = image_cropped[:, mask_cropped]`.
Destination pixels inside the pasted rectangle whose mask entry is true
receive the cropped image pixel; all others keep their value. -/
def masked_paste (background : Img3) (image_cropped : ℕ → ℕ → ℕ → ℤ)
    (mask_cropped : Mask) (top left h w : ℕ) : Img3 :=
  { background with
    data := fun ch r c =>
      if top ≤ r ∧ r < top + h ∧ left ≤ c ∧ c < left + w ∧
          mask_cropped (r - top) (c - left) = true
      then image_cropped ch (r - top) (c - left)
      else background.data ch r c }

/-- `np.random.randint(low, high)`: the (uniform) support `[low, high)`,
`none` modelling the `ValueError` raised when `low >= high`. -/
def randint_range (low high : ℤ) : Option (List ℤ) :=
  if low < high then
    some ((List.range (high - low).toNat).map (fun i : ℕ => low + (i : ℤ)))
  else none

/-- The offset draw of `random_place` (lines 403-404):
`top = np.random.randint(0, self.rep_image.height - h)` and
`left = np.random.randint(0, self.rep_image.width - w)`.  The bounds come
from the owning representative image's size, not from the size of the
`background` argument. -/
def random_place_offsets (rep_height rep_width h w : ℕ) :
    Option (List ℤ × List ℤ) :=
  match randint_range 0 ((rep_height : ℤ) - (h : ℤ)),
      randint_range 0 ((rep_width : ℤ) - (w : ℤ)) with
  | some ts, some ls => some (ts, ls)
  | _, _ => none

/-- `ForegroundObject.random_place` (lines 386-413) after rotation and
offset draw: perform the masked paste of line 405 and return the tight
box of the rotated mask shifted by the offsets (lines 408-412). -/
def random_place (background : Img3) (image_cropped : ℕ → ℕ → ℕ → ℤ)
    (mask_cropped : Mask) (h w top left : ℕ) : Img3 × Option BBox :=
  (masked_paste background image_cropped mask_cropped top left h w,
   (get_bbox mask_cropped h w).map (fun b =>
     ⟨b.top + top, b.bottom + top, b.left + left, b.right + left⟩))

/-! ## Buffers and views (`RepImage.set_image` / `ForegroundObject.crop`)

`ForegroundObject.crop` (lines 361-366) moves the spatial axes to the
front with two transposes, takes the basic slice `[top:bottom, left:right]`
and moves the axes back; on the rep image's live tensor this is the view
`image[:, top:bottom, left:right]`, sharing the underlying buffer.
`RepImage.set_image` (lines 302-309) copies the new contents into the live
buffer in place (`self.image[:] = new_image`), so every view created from
that buffer observes the new contents.  Buffers are modelled by a store
mapping buffer ids to tensor contents. -/

namespace Buffers

/-- The heap of pixel buffers. -/
structure Store where
  bufs : ℕ → Img3

/-- A `RepImage`, reduced to the identity of its live image buffer. -/
structure RepImageRef where
  buf : ℕ

/-- `RepImage.set_image` (lines 302-309): assert the new tensor's size
equals the live tensor's, then overwrite the live buffer's contents in
place; `none` models the `AssertionError`. -/
def set_image (st : Store) (rep : RepImageRef) (new_image : Img3) :
    Option Store :=
  let cur := st.bufs rep.buf
  if new_image.C = cur.C ∧ new_image.H = cur.H ∧ new_image.W = cur.W then
    some ⟨fun b => if b = rep.buf then { cur with data := new_image.data }
                   else st.bufs b⟩
  else none

/-- The view `image_cropped` built by `ForegroundObject.crop` on the owning
rep image (line 358): same buffer, offset by the box's top-left corner. -/
structure CropView where
  buf : ℕ
  top : ℕ
  left : ℕ

/-- `ForegroundObject.crop` of the rep image's live tensor, as a view. -/
def crop_view (rep : RepImageRef) (b : BBox) : CropView :=
  ⟨rep.buf, b.top, b.left⟩

/-- Reading pixel `(ch, r, c)` of a cropped view: position
`(top + r, left + c)` of the underlying buffer's current contents. -/
def read (st : Store) (v : CropView) (ch r c : ℕ) : ℤ :=
  (st.bufs v.buf).data ch (v.top + r) (v.left + c)

end Buffers

/-! ## Scoped substitution (`RepImage.image_as` / `FieldVideo.rep_images_as`)

At the whole-buffer level the image contents are flattened to `List ℤ`;
`Bool` results flag a propagating exception.  The caller-supplied body of
the `with` block is an arbitrary state transformer that may itself
raise. -/

/-- A rep image's live contents and the pristine copy captured at
construction (line 292: `orig_image = image.detach().clone()`). -/
structure RepState where
  image : List ℤ
  orig_image : List ℤ
deriving DecidableEq

namespace RepImage

/-- `RepImage.set_image` (lines 302-309) on flattened contents: assert
equal size, then copy in place (`none` models the `AssertionError`). -/
def set_image (s : RepState) (new_image : List ℤ) : Option RepState :=
  if new_image.length = s.image.length then some { s with image := new_image }
  else none

/-- The `finally` clause of `image_as` (line 323):
`self.set_image(self.orig_image)`; if that assertion fails the state is
left as is and the error propagates. -/
def finally_restore (s : RepState) : RepState × Bool :=
  match set_image s s.orig_image with
  | some s' => (s', false)
  | none => (s, true)

/-- `RepImage.image_as` (lines 311-323): inside `try`, install `tmp_image`
and run the caller body; the `finally` restore runs on every exit path.
Returns the final state and whether an exception propagates. -/
def image_as (s : RepState) (tmp_image : List ℤ)
    (body : RepState → RepState × Bool) : RepState × Bool :=
  match set_image s tmp_image with
  | none =>
      let r := finally_restore s
      (r.1, true)
  | some s0 =>
      let b := body s0
      let r := finally_restore b.1
      (r.1, b.2 || r.2)

end RepImage

/-- A `FieldVideo`'s rep images and the `orig_images` list captured at
construction (line 215). -/
structure FVState where
  rep_images : List RepState
  orig_images : List (List ℤ)
deriving DecidableEq

namespace FieldVideo

/-- The loop `for rep_image, x in zip(rep_images, xs): rep_image.set_image(x)`
used both to install substitutes and to restore originals (lines 227-232):
stops at the first failing assertion, which propagates; earlier elements
keep their new contents. -/
def set_image_all : List RepState → List (List ℤ) → List RepState × Bool
  | [], _ => ([], false)
  | rs, [] => (rs, false)
  | r :: rs, t :: ts =>
      match RepImage.set_image r t with
      | none => (r :: rs, true)
      | some r' =>
          let rest := set_image_all rs ts
          (r' :: rest.1, rest.2)

/-- `FieldVideo.rep_images_as` (lines 217-232): the length assertion sits
before the `try` (nothing installed on mismatch); then install all
substitutes, run the body, and in the `finally` restore every rep image
from the captured `orig_images`. -/
def rep_images_as (fv : FVState) (tmp_images : List (List ℤ))
    (body : FVState → FVState × Bool) : FVState × Bool :=
  if tmp_images.length = fv.orig_images.length then
    let ins := set_image_all fv.rep_images tmp_images
    if ins.2 then
      let res := set_image_all ins.1 fv.orig_images
      (⟨res.1, fv.orig_images⟩, true)
    else
      let b := body ⟨ins.1, fv.orig_images⟩
      let res := set_image_all b.1.rep_images b.1.orig_images
      (⟨res.1, b.1.orig_images⟩, b.2 || res.2)
  else (fv, true)

end FieldVideo

/-! ## `synthesize` object count (lines 484-492) -/

/-- Python `int(x)` on a float: truncation toward zero. -/
def py_int (x : ℚ) : ℤ := if 0 ≤ x then ⌊x⌋ else ⌈x⌉

/-- Python `range(n)` for a possibly negative `n`: empty when `n ≤ 0`. -/
def py_range (n : ℤ) : List ℕ := List.range n.toNat

/-- `n_obj = int(rng.normal(loc=6, scale=1.5))` (line 485); the normal
sample is the explicit parameter `x`. -/
def synthesize_n_obj (x : ℚ) : ℤ := py_int x

/-- The number of iterations of the `for _ in range(n_obj)` placement loop
(line 492) of `synthesize`, as a function of the drawn sample. -/
def synthesize_iterations (x : ℚ) : ℕ :=
  (py_range (synthesize_n_obj x)).length

/-! ## `YoloLabel` (lines 416-455) -/

/-- The data of a `ForegroundObject` used by `YoloLabel.add(obj=...)`:
its class id, its bounding box, and the owning rep image's size used by
`ForegroundObject.bbox_to_yolo` (lines 383-384). -/
structure FgObj where
  i_class : ℕ
  bbox : BBox
  rep_width : ℚ
  rep_height : ℚ

/-- One entry of `YoloLabel.bboxes`: the ordered dict of line 434. -/
structure YoloRow where
  i_class : ℕ
  x_center : ℚ
  y_center : ℚ
  width : ℚ
  height : ℚ
deriving DecidableEq

/-- The state of a `YoloLabel`: image size captured at construction
(lines 419-420), the yolo rows, and the `dicts` list of raw bbox dicts
(which stores `None` when `add` was called with `obj=`). -/
structure YoloLabelState where
  image_width : ℚ
  image_height : ℚ
  bboxes : List YoloRow
  dicts : List (Option BBox)
deriving DecidableEq

namespace YoloLabel

/-- `YoloLabel.__init__` (lines 417-421). -/
def init (image_width image_height : ℚ) : YoloLabelState :=
  ⟨image_width, image_height, [], []⟩

/-- `YoloLabel.add` (lines 423-442).  With `obj` given, the assertion
requires `i_class` and `bbox` to be `None`, the row is computed from the
object, and the *`bbox` parameter* — still `None` — is appended to
`dicts`; with `i_class`/`bbox` given, the row is computed from `bbox` and
the image size, and `bbox` is appended.  `none` models the
`AssertionError` on a mixed call. -/
def add (s : YoloLabelState) (obj : Option FgObj) (i_class : Option ℕ)
    (bbox : Option BBox) : Option YoloLabelState :=
  match obj with
  | some o =>
      if i_class = none ∧ bbox = none then
        let y := bbox_to_yolo o.bbox o.rep_width o.rep_height
        some { s with
          bboxes := s.bboxes ++ [⟨o.i_class, y.1, y.2.1, y.2.2.1, y.2.2.2⟩]
          dicts := s.dicts ++ [bbox] }
      else none
  | none =>
      match i_class, bbox with
      | some ic, some bb =>
          let y := bbox_to_yolo bb s.image_width s.image_height
          some { s with
            bboxes := s.bboxes ++ [⟨ic, y.1, y.2.1, y.2.2.1, y.2.2.2⟩]
            dicts := s.dicts ++ [some bb] }
      | _, _ => none

/-- `YoloLabel.to_tensor` (lines 451-452): one row
`[bbox['left'], bbox['top'], bbox['right'], bbox['bottom']]` per stored
dict; indexing the `None` stored by the `obj=` branch raises `TypeError`,
modelled by `none`. -/
def to_tensor (s : YoloLabelState) : Option (List (List ℕ)) :=
  s.dicts.mapM (fun d =>
    d.map (fun bb => [bb.left, bb.top, bb.right, bb.bottom]))

end YoloLabel

/-! ## Concrete instances used by witnesses and counterexamples -/

/-- The 10×10 single-class mask of the concrete scenario: true exactly on
rows `[2,5)` and columns `[4,7)`. -/
def c1mask : Mask := fun r c => decide (2 ≤ r ∧ r < 5 ∧ 4 ≤ c ∧ c < 7)

/-- A 2×2 plane with true pixels only on the main diagonal: two
4-connected blobs, one 8-connected component. -/
def diagMask : Mask := fun r c => decide ((r = 0 ∧ c = 0) ∨ (r = 1 ∧ c = 1))

/-- A mask whose only true pixel is `(0, 0)`. -/
def onePixMask : Mask := fun r c => decide (r = 0 ∧ c = 0)

/-- 4-adjacency (shared edge), the connectivity named by the spec. -/
def adj4P (p q : Pix) : Prop :=
  (p.1 = q.1 ∧ (p.2 = q.2 + 1 ∨ q.2 = p.2 + 1)) ∨
  (p.2 = q.2 ∧ (p.1 = q.1 + 1 ∨ q.1 = p.1 + 1))

instance (p q : Pix) : Decidable (adj4P p q) := by
  unfold adj4P; infer_instance

/-- A heap with one blank 4×4 single-channel buffer. -/
def w9store : Buffers.Store := ⟨fun _ => ⟨1, 4, 4, fun _ _ _ => 0⟩⟩

/-- A replacement tensor of the same 1×4×4 size. -/
def w9img : Img3 := ⟨1, 4, 4, fun _ r c => (r : ℤ) + 10 * (c : ℤ)⟩

/-- The heap after installing `w9img` into buffer 0 in place. -/
def w9store' : Buffers.Store :=
  ⟨fun b => if b = 0 then { w9store.bufs 0 with data := w9img.data }
            else w9store.bufs b⟩

section BasicLemmas

theorem mem_rasterPix {H W : ℕ} {p : Pix} :
    p ∈ rasterPix H W ↔ p.1 < H ∧ p.2 < W := by
  unfold rasterPix
  simp only [List.mem_map, List.mem_range]
  constructor
  · rintro ⟨i, hi, rfl⟩
    have hW : 0 < W := by
      rcases Nat.eq_zero_or_pos W with h0 | h0
      · subst h0; simp at hi
      · exact h0
    constructor
    · have hi' : i < W * H := by rw [Nat.mul_comm]; exact hi
      exact Nat.div_lt_of_lt_mul hi'
    · exact Nat.mod_lt _ hW
  · rintro ⟨h1, h2⟩
    refine ⟨W * p.1 + p.2, ?_, ?_⟩
    · have : W * p.1 + p.2 < W * (p.1 + 1) := by
        rw [Nat.mul_add, Nat.mul_one]; omega
      calc W * p.1 + p.2 < W * (p.1 + 1) := this
        _ ≤ W * H := Nat.mul_le_mul_left W h1
        _ = H * W := Nat.mul_comm _ _
    · have hW : 0 < W := by omega
      have hdiv : (W * p.1 + p.2) / W = p.1 := by
        rw [Nat.mul_add_div hW, Nat.div_eq_of_lt h2, Nat.add_zero]
      have hmod : (W * p.1 + p.2) % W = p.2 := by
        rw [Nat.mul_add_mod, Nat.mod_eq_of_lt h2]
      rw [hdiv, hmod]

theorem rIdx_inj {W : ℕ} {p q : Pix} (hp : p.2 < W) (hq : q.2 < W)
    (h : rIdx W p = rIdx W q) : p = q := by
  unfold rIdx at h
  have hW : 0 < W := by omega
  have h1 : p.1 = q.1 := by
    rcases Nat.lt_trichotomy p.1 q.1 with hlt | heq | hgt
    · exfalso
      have : W * p.1 + p.2 < W * q.1 + q.2 := by
        have : W * (p.1 + 1) ≤ W * q.1 := Nat.mul_le_mul_left W hlt
        rw [Nat.mul_add, Nat.mul_one] at this
        omega
      omega
    · exact heq
    · exfalso
      have : W * q.1 + q.2 < W * p.1 + p.2 := by
        have : W * (q.1 + 1) ≤ W * p.1 := Nat.mul_le_mul_left W hgt
        rw [Nat.mul_add, Nat.mul_one] at this
        omega
      omega
  have h2 : p.2 = q.2 := by rw [h1] at h; omega
  exact Prod.ext h1 h2

theorem rasterPix_pairwise (H W : ℕ) :
    (rasterPix H W).Pairwise (fun p q => rIdx W p < rIdx W q) := by
  unfold rasterPix
  rw [List.pairwise_map]
  have hmono : ∀ i ∈ List.range (H * W), rIdx W (i / W, i % W) = i := by
    intro i hi
    simp only [List.mem_range] at hi
    unfold rIdx
    exact Nat.div_add_mod i W
  have base : (List.range (H * W)).Pairwise (· < ·) := List.pairwise_lt_range _
  refine List.Pairwise.imp_of_mem ?_ base
  intro a b ha hb hab
  rw [hmono a ha, hmono b hb]
  exact hab

theorem rasterPix_nodup (H W : ℕ) : (rasterPix H W).Nodup :=
  (rasterPix_pairwise H W).imp (fun h => by
    intro hEq
    subst hEq
    exact Nat.lt_irrefl _ h)

theorem mem_truePixels {m : Mask} {H W : ℕ} {p : Pix} :
    p ∈ truePixels m H W ↔ fgP m H W p := by
  unfold truePixels fgP
  rw [List.mem_filter, mem_rasterPix]
  constructor
  · rintro ⟨⟨h1, h2⟩, h3⟩; exact ⟨h1, h2, h3⟩
  · rintro ⟨h1, h2, h3⟩; exact ⟨⟨h1, h2⟩, h3⟩

end BasicLemmas

theorem adjP_symm {p q : Pix} (h : adjP p q) : adjP q p := by
  obtain ⟨h1, h2, h3⟩ := h
  exact ⟨fun hEq => h1 hEq.symm, ⟨h2.2, h2.1⟩, ⟨h3.2, h3.1⟩⟩

theorem stepP_symm {m : Mask} {H W : ℕ} : Symmetric (stepP m H W) := by
  intro a b ⟨h1, h2, h3⟩
  exact ⟨h2, h1, adjP_symm h3⟩

theorem Reaches_symm {m : Mask} {H W : ℕ} {p q : Pix}
    (h : Reaches m H W p q) : Reaches m H W q p :=
  Relation.ReflTransGen.symmetric stepP_symm h

theorem Reaches_trans {m : Mask} {H W : ℕ} {p q r : Pix}
    (h1 : Reaches m H W p q) (h2 : Reaches m H W q r) : Reaches m H W p r :=
  Relation.ReflTransGen.trans h1 h2

theorem Reaches_fg_right {m : Mask} {H W : ℕ} {p q : Pix}
    (hp : fgP m H W p) (h : Reaches m H W p q) : fgP m H W q := by
  induction h with
  | refl => exact hp
  | tail _ hstep ih => exact hstep.2.1

section ReachLemmas

variable {m : Mask} {H W : ℕ}

theorem mem_gridF {p : Pix} : p ∈ gridF H W ↔ p.1 < H ∧ p.2 < W := by
  unfold gridF
  rw [Finset.mem_product, Finset.mem_range, Finset.mem_range]

theorem mem_goodF {p : Pix} : p ∈ goodF m H W ↔ fgP m H W p := by
  unfold goodF
  rw [Finset.mem_filter, mem_gridF]
  constructor
  · exact fun h => h.2
  · exact fun h => ⟨⟨h.1, h.2.1⟩, h⟩

theorem expand_subset_goodF (S : Finset Pix) : expand m H W S ⊆ goodF m H W := by
  intro q hq
  unfold expand at hq
  rw [Finset.mem_filter] at hq
  exact mem_goodF.mpr hq.2.1

theorem subset_expand {S : Finset Pix} (hS : S ⊆ goodF m H W) :
    S ⊆ expand m H W S := by
  intro q hq
  have hg := mem_goodF.mp (hS hq)
  unfold expand
  rw [Finset.mem_filter, mem_gridF]
  exact ⟨⟨hg.1, hg.2.1⟩, hg, Or.inl hq⟩

theorem compIter_subset_goodF :
    ∀ (n : ℕ) (S : Finset Pix), S ⊆ goodF m H W →
      compIter m H W n S ⊆ goodF m H W := by
  intro n
  induction n with
  | zero => intro S hS; exact hS
  | succ n ih =>
      intro S hS
      unfold compIter
      by_cases hfix : expand m H W S = S
      · simp only [hfix, if_pos rfl]
        exact hS
      · simp only [if_neg hfix]
        exact ih _ (expand_subset_goodF S)

theorem subset_compIter :
    ∀ (n : ℕ) (S : Finset Pix), S ⊆ goodF m H W →
      S ⊆ compIter m H W n S := by
  intro n
  induction n with
  | zero => intro S hS; exact fun q hq => hq
  | succ n ih =>
      intro S hS
      unfold compIter
      by_cases hfix : expand m H W S = S
      · simp only [hfix, if_pos rfl]
        exact fun q hq => hq
      · simp only [if_neg hfix]
        exact fun q hq => ih _ (expand_subset_goodF S) (subset_expand hS hq)

theorem compIter_growth :
    ∀ (n : ℕ) (S : Finset Pix), S ⊆ goodF m H W →
      expand m H W (compIter m H W n S) = compIter m H W n S ∨
        n + S.card ≤ (compIter m H W n S).card := by
  intro n
  induction n with
  | zero => intro S hS; right; unfold compIter; omega
  | succ n ih =>
      intro S hS
      unfold compIter
      by_cases hfix : expand m H W S = S
      · simp only [hfix, if_pos rfl]
        left; exact hfix
      · simp only [if_neg hfix]
        rcases ih (expand m H W S) (expand_subset_goodF S) with h | h
        · left; exact h
        · right
          have hsub : S ⊆ expand m H W S := subset_expand hS
          have hne : S ≠ expand m H W S := fun h => hfix h.symm
          have hcard : S.card < (expand m H W S).card :=
            Finset.card_lt_card (Finset.ssubset_iff_subset_ne.mpr ⟨hsub, hne⟩)
          omega

theorem card_gridF : (gridF H W).card = H * W := by
  unfold gridF
  rw [Finset.card_product, Finset.card_range, Finset.card_range]

theorem compIter_fixed {S : Finset Pix} (hS : S ⊆ goodF m H W)
    (hne : S.Nonempty) :
    expand m H W (compIter m H W (H * W) S) = compIter m H W (H * W) S := by
  rcases compIter_growth (H * W) S hS with h | h
  · exact h
  · exfalso
    have h0 : 0 < S.card := Finset.card_pos.mpr hne
    have h1 : (compIter m H W (H * W) S).card ≤ (goodF m H W).card :=
      Finset.card_le_card (compIter_subset_goodF _ _ hS)
    have h2 : (goodF m H W).card ≤ H * W := by
      calc (goodF m H W).card ≤ (gridF H W).card :=
            Finset.card_le_card (Finset.filter_subset _ _)
        _ = H * W := card_gridF
    omega

theorem singleton_subset_goodF {p : Pix} (hp : fgP m H W p) :
    ({p} : Finset Pix) ⊆ goodF m H W := by
  intro q hq
  rw [Finset.mem_singleton] at hq
  subst hq
  exact mem_goodF.mpr hp

/-- Soundness: everything in the saturated set is reachable from `p`. -/
theorem compIter_sound :
    ∀ (n : ℕ) (S : Finset Pix) (p : Pix), S ⊆ goodF m H W →
      (∀ s ∈ S, Reaches m H W p s) →
      ∀ q ∈ compIter m H W n S, Reaches m H W p q := by
  intro n
  induction n with
  | zero => intro S p hS hreach q hq; exact hreach q hq
  | succ n ih =>
      intro S p hS hreach q hq
      unfold compIter at hq
      by_cases hfix : expand m H W S = S
      · simp only [hfix, if_pos rfl] at hq
        exact hreach q hq
      · simp only [if_neg hfix] at hq
        refine ih (expand m H W S) p (expand_subset_goodF S) ?_ q hq
        intro s hs
        unfold expand at hs
        rw [Finset.mem_filter, mem_gridF] at hs
        obtain ⟨hb, hfg, hor⟩ := hs
        rcases hor with hmem | ⟨r, hr, hadj⟩
        · exact hreach s hmem
        · have hfgr := mem_goodF.mp (hS hr)
          exact Relation.ReflTransGen.tail (hreach r hr) ⟨hfgr, hfg, hadj⟩

/-- Completeness: a fixed point of `expand` is closed under reachability. -/
theorem fixed_closed {R : Finset Pix} (hfix : expand m H W R = R) {p q : Pix}
    (hp : p ∈ R) (h : Reaches m H W p q) : q ∈ R := by
  induction h with
  | refl => exact hp
  | tail hab hstep ih =>
      rename_i b c
      have hfgc := hstep.2.1
      rw [← hfix]
      unfold expand
      rw [Finset.mem_filter, mem_gridF]
      exact ⟨⟨hfgc.1, hfgc.2.1⟩, hfgc, Or.inr ⟨b, ih, hstep.2.2⟩⟩

/-- The saturated region is exactly the reachability class of `p`. -/
theorem mem_reachSet {p q : Pix} (hp : fgP m H W p) :
    q ∈ reachSet m H W p ↔ Reaches m H W p q := by
  unfold reachSet
  rw [if_pos hp]
  constructor
  · intro hq
    refine compIter_sound (H * W) {p} p (singleton_subset_goodF hp) ?_ q hq
    intro s hs
    rw [Finset.mem_singleton] at hs
    subst hs
    exact Relation.ReflTransGen.refl
  · intro hreach
    have hself : p ∈ compIter m H W (H * W) {p} :=
      subset_compIter _ _ (singleton_subset_goodF hp) (Finset.mem_singleton_self p)
    exact fixed_closed
      (compIter_fixed (singleton_subset_goodF hp) (Finset.singleton_nonempty p))
      hself hreach

theorem reachSet_empty {p : Pix} (hp : ¬ fgP m H W p) :
    reachSet m H W p = ∅ := by
  unfold reachSet
  rw [if_neg hp]

theorem mem_reachSet_fg {p q : Pix} (hq : q ∈ reachSet m H W p) :
    fgP m H W p ∧ fgP m H W q := by
  by_cases hp : fgP m H W p
  · refine ⟨hp, ?_⟩
    exact Reaches_fg_right hp ((mem_reachSet hp).mp hq)
  · rw [reachSet_empty hp] at hq
    exact absurd hq (Finset.not_mem_empty q)

theorem reachSet_self {p : Pix} (hp : fgP m H W p) :
    p ∈ reachSet m H W p :=
  (mem_reachSet hp).mpr Relation.ReflTransGen.refl

end ReachLemmas

section LabelLemmas

variable {m : Mask} {H W : ℕ}

theorem mem_reps {p : Pix} : p ∈ reps m H W ↔ isRep m H W p := by
  unfold reps
  rw [List.mem_filter]
  constructor
  · intro ⟨_, h⟩
    exact of_decide_eq_true h
  · intro h
    refine ⟨mem_rasterPix.mpr ⟨h.1.1, h.1.2.1⟩, decide_eq_true h⟩

theorem reps_pairwise :
    (reps m H W).Pairwise (fun p q => rIdx W p < rIdx W q) :=
  (rasterPix_pairwise H W).filter _

theorem reps_nodup : (reps m H W).Nodup :=
  reps_pairwise.imp (fun h => by
    intro hEq
    subst hEq
    exact Nat.lt_irrefl _ h)

theorem rep_unique {r1 r2 p : Pix} (h1 : isRep m H W r1) (h2 : isRep m H W r2)
    (hp1 : p ∈ reachSet m H W r1) (hp2 : p ∈ reachSet m H W r2) :
    r1 = r2 := by
  have hfg1 := h1.1
  have hfg2 := h2.1
  have hr1p : Reaches m H W r1 p := (mem_reachSet hfg1).mp hp1
  have hr2p : Reaches m H W r2 p := (mem_reachSet hfg2).mp hp2
  have h12 : Reaches m H W r1 r2 := Reaches_trans hr1p (Reaches_symm hr2p)
  rcases Nat.lt_trichotomy (rIdx W r1) (rIdx W r2) with hlt | heq | hgt
  · exfalso
    refine h2.2 r1 (mem_rasterPix.mpr ⟨hfg1.1, hfg1.2.1⟩) hlt ?_
    exact (mem_reachSet hfg1).mpr h12
  · exact rIdx_inj hfg1.2.1 hfg2.2.1 heq
  · exfalso
    refine h1.2 r2 (mem_rasterPix.mpr ⟨hfg2.1, hfg2.2.1⟩) hgt ?_
    exact (mem_reachSet hfg2).mpr (Reaches_symm h12)

theorem exists_rep {p : Pix} (hp : fgP m H W p) :
    ∃ r, isRep m H W r ∧ p ∈ reachSet m H W r := by
  have hCne : (reachSet m H W p).Nonempty := ⟨p, reachSet_self hp⟩
  obtain ⟨r, hrC, hrmin⟩ :=
    Finset.exists_min_image (reachSet m H W p) (rIdx W) hCne
  have hfgr : fgP m H W r := (mem_reachSet_fg hrC).2
  have hpr : Reaches m H W p r := (mem_reachSet hp).mp hrC
  refine ⟨r, ⟨hfgr, ?_⟩, (mem_reachSet hfgr).mpr (Reaches_symm hpr)⟩
  intro q hq hqlt hrq
  have hfgq : fgP m H W q := (mem_reachSet_fg hrq).1
  have hqr : Reaches m H W q r := (mem_reachSet hfgq).mp hrq
  have hpq : Reaches m H W p q := Reaches_trans hpr (Reaches_symm hqr)
  have hqC : q ∈ reachSet m H W p := (mem_reachSet hp).mpr hpq
  exact Nat.lt_irrefl _ (Nat.lt_of_le_of_lt (hrmin q hqC) hqlt)

theorem labelIn_spec {p : Pix} :
    ∀ (l : List Pix) (k i : ℕ) (h : i < l.length),
      (∀ j (hj : j < i), p ∉ reachSet m H W (l.get ⟨j, Nat.lt_trans hj h⟩)) →
      p ∈ reachSet m H W (l.get ⟨i, h⟩) →
      labelIn m H W p l k = k + i := by
  intro l
  induction l with
  | nil => intro k i h; exact absurd h (Nat.not_lt_zero i)
  | cons r rs ih =>
      intro k i h hbefore hat
      unfold labelIn
      cases i with
      | zero =>
          simp only [List.get] at hat
          rw [if_pos hat, Nat.add_zero]
      | succ i' =>
          have hr : p ∉ reachSet m H W r := by
            have := hbefore 0 (Nat.succ_pos i')
            simpa using this
          rw [if_neg hr]
          have h' : i' < rs.length := Nat.lt_of_succ_lt_succ h
          have := ih (k + 1) i' h'
            (fun j hj => by
              have := hbefore (j + 1) (Nat.succ_lt_succ hj)
              simpa using this)
            (by simpa using hat)
          rw [this]
          omega

theorem labelOf_eq {p : Pix} (hp : fgP m H W p) :
    ∃ i, ∃ h : i < (reps m H W).length,
      labelOf m H W p = i + 1 ∧
      p ∈ reachSet m H W ((reps m H W).get ⟨i, h⟩) ∧
      ∀ j (hj : j < (reps m H W).length),
        p ∈ reachSet m H W ((reps m H W).get ⟨j, hj⟩) → j = i := by
  obtain ⟨r, hrep, hpr⟩ := exists_rep hp
  obtain ⟨⟨i, h⟩, hget⟩ := List.mem_iff_get.mp (mem_reps.mpr hrep)
  have huniq : ∀ j (hj : j < (reps m H W).length),
      p ∈ reachSet m H W ((reps m H W).get ⟨j, hj⟩) → j = i := by
    intro j hj hreach
    have hrepj : isRep m H W ((reps m H W).get ⟨j, hj⟩) :=
      mem_reps.mp (List.get_mem _ _ _)
    have : (reps m H W).get ⟨j, hj⟩ = r := rep_unique hrepj hrep hreach hpr
    have hgets : (reps m H W).get ⟨j, hj⟩ = (reps m H W).get ⟨i, h⟩ := by
      rw [this, hget]
    exact Fin.mk.injEq _ _ _ _ ▸ (reps_nodup.get_inj_iff.mp hgets)
  refine ⟨i, h, ?_, by rw [hget]; exact hpr, huniq⟩
  unfold labelOf
  rw [if_pos hp]
  rw [labelIn_spec (reps m H W) 1 i h ?_ (by rw [hget]; exact hpr)]
  · omega
  · intro j hj hreach
    have := huniq j (Nat.lt_trans hj h) hreach
    omega

theorem labelOf_ne_zero {p : Pix} (hp : fgP m H W p) :
    labelOf m H W p ≠ 0 := by
  obtain ⟨i, h, heq, _⟩ := labelOf_eq hp
  rw [heq]
  exact Nat.succ_ne_zero i

theorem labelOf_of_not_fg {p : Pix} (hp : ¬ fgP m H W p) :
    labelOf m H W p = 0 := by
  unfold labelOf
  rw [if_neg hp]

theorem labelOf_le {p : Pix} : labelOf m H W p ≤ (reps m H W).length := by
  by_cases hp : fgP m H W p
  · obtain ⟨i, h, heq, _⟩ := labelOf_eq hp
    rw [heq]
    omega
  · rw [labelOf_of_not_fg hp]
    exact Nat.zero_le _

theorem labelOf_rep {i : ℕ} (h : i < (reps m H W).length) :
    labelOf m H W ((reps m H W).get ⟨i, h⟩) = i + 1 := by
  have hrep : isRep m H W ((reps m H W).get ⟨i, h⟩) :=
    mem_reps.mp (List.get_mem _ _ _)
  obtain ⟨i', h', heq, hreach, huniq⟩ := labelOf_eq hrep.1
  have : i = i' := huniq i h (reachSet_self hrep.1)
  subst this
  exact heq

theorem labelOf_char {p : Pix} {i : ℕ} (h : i < (reps m H W).length) :
    labelOf m H W p = i + 1 ↔
      fgP m H W p ∧ p ∈ reachSet m H W ((reps m H W).get ⟨i, h⟩) := by
  constructor
  · intro hlab
    have hp : fgP m H W p := by
      by_contra hnp
      rw [labelOf_of_not_fg hnp] at hlab
      exact Nat.succ_ne_zero i hlab.symm
    obtain ⟨i', h', heq, hreach, huniq⟩ := labelOf_eq hp
    have : i' = i := by rw [heq] at hlab; omega
    subst this
    exact ⟨hp, hreach⟩
  · rintro ⟨hp, hreach⟩
    obtain ⟨i', h', heq, hreach', huniq⟩ := labelOf_eq hp
    have : i = i' := huniq i h hreach
    subst this
    exact heq

end LabelLemmas

section RectConnect

variable {m : Mask} {H W : ℕ}

theorem adjP_right (r c : ℕ) : adjP (r, c) (r, c + 1) := by
  refine ⟨?_, ?_, ?_⟩
  · intro h
    exact Nat.ne_of_lt (Nat.lt_succ_self c) (congrArg Prod.snd h)
  · exact ⟨Nat.le_succ r, Nat.le_succ r⟩
  · exact ⟨Nat.le_succ_of_le (Nat.le_succ c), Nat.le_refl (c + 1)⟩

theorem adjP_down (r c : ℕ) : adjP (r, c) (r + 1, c) := by
  refine ⟨?_, ?_, ?_⟩
  · intro h
    exact Nat.ne_of_lt (Nat.lt_succ_self r) (congrArg Prod.fst h)
  · exact ⟨Nat.le_succ_of_le (Nat.le_succ r), Nat.le_refl (r + 1)⟩
  · exact ⟨Nat.le_succ c, Nat.le_succ c⟩

theorem reaches_row {r c : ℕ} :
    ∀ d : ℕ, (∀ k ≤ d, fgP m H W (r, c + k)) →
      Reaches m H W (r, c) (r, c + d) := by
  intro d
  induction d with
  | zero => intro _; exact Relation.ReflTransGen.refl
  | succ d ih =>
      intro hall
      refine Relation.ReflTransGen.tail
        (ih (fun k hk => hall k (Nat.le_succ_of_le hk))) ?_
      exact ⟨hall d (Nat.le_succ d), hall (d + 1) (Nat.le_refl _),
        adjP_right r (c + d)⟩

theorem reaches_col {r c : ℕ} :
    ∀ d : ℕ, (∀ k ≤ d, fgP m H W (r + k, c)) →
      Reaches m H W (r, c) (r + d, c) := by
  intro d
  induction d with
  | zero => intro _; exact Relation.ReflTransGen.refl
  | succ d ih =>
      intro hall
      refine Relation.ReflTransGen.tail
        (ih (fun k hk => hall k (Nat.le_succ_of_le hk))) ?_
      exact ⟨hall d (Nat.le_succ d), hall (d + 1) (Nat.le_refl _),
        adjP_down (r + d) c⟩

/-- Every axis-aligned rectangle of foreground pixels is 8-connected. -/
theorem rect_connected (r1 r2 c1 c2 : ℕ)
    (hall : ∀ p : Pix, r1 ≤ p.1 → p.1 < r2 → c1 ≤ p.2 → p.2 < c2 →
      fgP m H W p)
    {p q : Pix}
    (hp : r1 ≤ p.1 ∧ p.1 < r2 ∧ c1 ≤ p.2 ∧ p.2 < c2)
    (hq : r1 ≤ q.1 ∧ q.1 < r2 ∧ c1 ≤ q.2 ∧ q.2 < c2) :
    Reaches m H W p q := by
  obtain ⟨pr, pc⟩ := p
  obtain ⟨qr, qc⟩ := q
  simp only [] at hp hq
  have hmid : Reaches m H W (pr, pc) (qr, pc) := by
    rcases Nat.le_total pr qr with hle | hle
    · obtain ⟨d, rfl⟩ := Nat.exists_eq_add_of_le hle
      exact reaches_col d (fun k hk => hall (pr + k, pc)
        (by omega) (by omega) (by omega) (by omega))
    · obtain ⟨d, rfl⟩ := Nat.exists_eq_add_of_le hle
      exact Reaches_symm (reaches_col d (fun k hk => hall (qr + k, pc)
        (by omega) (by omega) (by omega) (by omega)))
  refine Reaches_trans hmid ?_
  rcases Nat.le_total pc qc with hle | hle
  · obtain ⟨d, rfl⟩ := Nat.exists_eq_add_of_le hle
    exact reaches_row d (fun k hk => hall (qr, pc + k)
      (by omega) (by omega) (by omega) (by omega))
  · obtain ⟨d, rfl⟩ := Nat.exists_eq_add_of_le hle
    exact Reaches_symm (reaches_row d (fun k hk => hall (qr, qc + k)
      (by omega) (by omega) (by omega) (by omega)))

end RectConnect

section ObjectwiseSpec

variable {m : Mask} {H W : ℕ}

theorem mem_presentLabels {v : ℕ} :
    v ∈ presentLabels m H W ↔
      v < (reps m H W).length + 1 ∧
        ∃ p ∈ rasterPix H W, labelOf m H W p = v := by
  unfold presentLabels
  rw [List.mem_filter, List.mem_range]
  constructor
  · rintro ⟨h1, h2⟩
    exact ⟨h1, of_decide_eq_true h2⟩
  · rintro ⟨h1, h2⟩
    exact ⟨h1, decide_eq_true h2⟩

theorem presentLabels_of_bg
    (hbg : ∃ p : Pix, p.1 < H ∧ p.2 < W ∧ m p.1 p.2 = false) :
    presentLabels m H W = List.range ((reps m H W).length + 1) := by
  unfold presentLabels
  apply List.filter_eq_self.mpr
  intro v hv
  rw [List.mem_range] at hv
  apply decide_eq_true
  cases v with
  | zero =>
      obtain ⟨p, h1, h2, h3⟩ := hbg
      refine ⟨p, mem_rasterPix.mpr ⟨h1, h2⟩, ?_⟩
      apply labelOf_of_not_fg
      intro hfg
      rw [hfg.2.2] at h3
      exact Bool.noConfusion h3
  | succ i =>
      have hlt : i < (reps m H W).length := by omega
      refine ⟨(reps m H W).get ⟨i, hlt⟩, ?_, labelOf_rep hlt⟩
      have hfg := (mem_reps.mp (List.get_mem (reps m H W) i hlt)).1
      exact mem_rasterPix.mpr ⟨hfg.1, hfg.2.1⟩

theorem make_objectwise_of_bg
    (hbg : ∃ p : Pix, p.1 < H ∧ p.2 < W ∧ m p.1 p.2 = false) :
    make_objectwise_mask m H W =
      (List.range (reps m H W).length).map
        (fun i => fun r c => decide (labelOf m H W (r, c) = i + 1)) := by
  unfold make_objectwise_mask
  rw [presentLabels_of_bg hbg, List.range_succ_eq_map, List.drop_one,
    List.tail_cons, List.map_map]
  rfl

theorem make_objectwise_length_of_bg
    (hbg : ∃ p : Pix, p.1 < H ∧ p.2 < W ∧ m p.1 p.2 = false) :
    (make_objectwise_mask m H W).length = (reps m H W).length := by
  rw [make_objectwise_of_bg hbg, List.length_map, List.length_range]

theorem get_map_range {α : Type} (f : ℕ → α) {n i : ℕ}
    (h : i < ((List.range n).map f).length) :
    ((List.range n).map f).get ⟨i, h⟩ = f i := by
  simp

theorem make_objectwise_get_of_bg
    (hbg : ∃ p : Pix, p.1 < H ∧ p.2 < W ∧ m p.1 p.2 = false) {i : ℕ}
    (h : i < (make_objectwise_mask m H W).length) :
    (make_objectwise_mask m H W).get ⟨i, h⟩ =
      fun r c => decide (labelOf m H W (r, c) = i + 1) := by
  rw [List.get_of_eq (make_objectwise_of_bg hbg), get_map_range]

variable {B : List (Finset Pix)}

theorem blob_disjoint (hB : BlobDecomp m H W B) {b b' : Finset Pix}
    (hb : b ∈ B) (hb' : b' ∈ B) {p : Pix} (hp : p ∈ b) (hp' : p ∈ b') :
    b = b' := by
  by_contra hne
  have hsym : Symmetric (fun (b b' : Finset Pix) => ∀ p ∈ b, p ∉ b') := by
    intro x y h q hqy hqx
    exact h q hqx hqy
  exact hB.disj.forall hsym hb hb' hne p hp hp'

theorem step_closed (hB : BlobDecomp m H W B) {b : Finset Pix} (hb : b ∈ B)
    {a q : Pix} (ha : a ∈ b) (hstep : stepP m H W a q) : q ∈ b := by
  obtain ⟨b', hb', hq⟩ := hB.cover q hstep.2.1
  by_cases hEq : b' = b
  · rw [← hEq]; exact hq
  · exfalso
    have hsym : Symmetric
        (fun (x y : Finset Pix) => ∀ p ∈ x, ∀ q ∈ y, ¬ adjP p q) := by
      intro x y h u hu v hv hadj
      exact h v hv u hu (adjP_symm hadj)
    exact hB.sep.forall hsym hb hb' (fun hh => hEq hh.symm) a ha q hq
      hstep.2.2

theorem reach_closed (hB : BlobDecomp m H W B) {b : Finset Pix} (hb : b ∈ B)
    {p q : Pix} (hp : p ∈ b) (h : Reaches m H W p q) : q ∈ b := by
  induction h with
  | refl => exact hp
  | tail _ hstep ih => exact step_closed hB hb ih hstep

theorem reachSet_eq_blob (hB : BlobDecomp m H W B) {b : Finset Pix}
    (hb : b ∈ B) {p : Pix} (hp : p ∈ b) : reachSet m H W p = b := by
  have hfgp := hB.fg_mem b hb p hp
  ext q
  rw [mem_reachSet hfgp]
  constructor
  · intro h
    exact reach_closed hB hb hp h
  · intro hq
    exact hB.conn b hb p hp q hq

theorem blob_rep_exists (hB : BlobDecomp m H W B) {b : Finset Pix}
    (hb : b ∈ B) : ∃ r ∈ b, isRep m H W r := by
  obtain ⟨p, hp⟩ := hB.nonempty b hb
  obtain ⟨r, hrep, hpr⟩ := exists_rep (hB.fg_mem b hb p hp)
  have hrb : r ∈ b := by
    have hreach : Reaches m H W p r :=
      Reaches_symm ((mem_reachSet hrep.1).mp hpr)
    exact reach_closed hB hb hp hreach
  exact ⟨r, hrb, hrep⟩

theorem blob_rep_unique (hB : BlobDecomp m H W B) {b : Finset Pix}
    (hb : b ∈ B) {r1 r2 : Pix} (h1 : r1 ∈ b) (h2 : r2 ∈ b)
    (hrep1 : isRep m H W r1) (hrep2 : isRep m H W r2) : r1 = r2 := by
  refine rep_unique hrep1 hrep2 (reachSet_self hrep1.1) ?_
  rw [reachSet_eq_blob hB hb h2]
  exact h1

theorem blobs_nodup (hB : BlobDecomp m H W B) : B.Nodup := by
  refine hB.disj.imp_of_mem ?_
  intro b b' hb hb' hdisj hEq
  obtain ⟨p, hp⟩ := hB.nonempty b hb
  exact hdisj p hp (hEq ▸ hp)

theorem reps_length_eq (hB : BlobDecomp m H W B) :
    (reps m H W).length = B.length := by
  have hcard : B.toFinset.card = (reps m H W).toFinset.card := by
    refine Finset.card_bij
      (fun b hb => (blob_rep_exists hB (List.mem_toFinset.mp hb)).choose)
      ?_ ?_ ?_
    · intro b hb
      have hspec := (blob_rep_exists hB (List.mem_toFinset.mp hb)).choose_spec
      exact List.mem_toFinset.mpr (mem_reps.mpr hspec.2)
    · intro b1 hb1 b2 hb2 hEq
      have hs1 := (blob_rep_exists hB (List.mem_toFinset.mp hb1)).choose_spec
      have hs2 := (blob_rep_exists hB (List.mem_toFinset.mp hb2)).choose_spec
      have hEq' : (blob_rep_exists hB (List.mem_toFinset.mp hb1)).choose
          = (blob_rep_exists hB (List.mem_toFinset.mp hb2)).choose := hEq
      have hmem : (blob_rep_exists hB (List.mem_toFinset.mp hb1)).choose ∈ b2 := by
        rw [hEq']
        exact hs2.1
      exact blob_disjoint hB (List.mem_toFinset.mp hb1)
        (List.mem_toFinset.mp hb2) hs1.1 hmem
    · intro r hr
      have hrep : isRep m H W r := mem_reps.mp (List.mem_toFinset.mp hr)
      obtain ⟨b, hb, hrb⟩ := hB.cover r hrep.1
      refine ⟨b, List.mem_toFinset.mpr hb, ?_⟩
      have hspec := (blob_rep_exists hB
        (List.mem_toFinset.mp (List.mem_toFinset.mpr hb))).choose_spec
      exact blob_rep_unique hB hb hspec.1 hrb hspec.2 hrep
  rw [← List.toFinset_card_of_nodup reps_nodup, ← hcard,
    List.toFinset_card_of_nodup (blobs_nodup hB)]

theorem label_iff_blob (hB : BlobDecomp m H W B) {i : ℕ}
    (h : i < (reps m H W).length) {b : Finset Pix} (hb : b ∈ B)
    (hrb : (reps m H W).get ⟨i, h⟩ ∈ b) (p : Pix) :
    labelOf m H W p = i + 1 ↔ p ∈ b := by
  rw [labelOf_char h]
  constructor
  · rintro ⟨hfg, hreach⟩
    rw [reachSet_eq_blob hB hb hrb] at hreach
    exact hreach
  · intro hp
    refine ⟨hB.fg_mem b hb p hp, ?_⟩
    rw [reachSet_eq_blob hB hb hrb]
    exact hp

theorem rep_blob (hB : BlobDecomp m H W B) {i : ℕ}
    (h : i < (reps m H W).length) :
    ∃ b ∈ B, (reps m H W).get ⟨i, h⟩ ∈ b := by
  have hrep : isRep m H W ((reps m H W).get ⟨i, h⟩) :=
    mem_reps.mp (List.get_mem _ _ _)
  exact hB.cover _ hrep.1

/-- Central specification of `make_objectwise_mask` on a plane whose
foreground decomposes into the blobs `B` and which has at least one
background pixel: one output mask per blob, each output mask's pixel set
being exactly one blob, every blob being some output mask, and the union
of the outputs being the original plane. -/
theorem objectwise_blob_spec (hB : BlobDecomp m H W B)
    (hbg : ∃ p : Pix, p.1 < H ∧ p.2 < W ∧ m p.1 p.2 = false) :
    (make_objectwise_mask m H W).length = B.length ∧
    (∀ i (h : i < (make_objectwise_mask m H W).length), ∃ b ∈ B, ∀ p : Pix,
        ((make_objectwise_mask m H W).get ⟨i, h⟩) p.1 p.2 = true ↔ p ∈ b) ∧
    (∀ b ∈ B, ∃ i, ∃ h : i < (make_objectwise_mask m H W).length, ∀ p : Pix,
        ((make_objectwise_mask m H W).get ⟨i, h⟩) p.1 p.2 = true ↔ p ∈ b) ∧
    (∀ r c : ℕ, r < H → c < W →
        (m r c = true ↔ ∃ i, ∃ h : i < (make_objectwise_mask m H W).length,
          ((make_objectwise_mask m H W).get ⟨i, h⟩) r c = true)) := by
  have hlen : (make_objectwise_mask m H W).length = B.length := by
    rw [make_objectwise_length_of_bg hbg, reps_length_eq hB]
  refine ⟨hlen, ?_, ?_, ?_⟩
  · intro i h
    have hi : i < (reps m H W).length := by
      rw [← make_objectwise_length_of_bg hbg]
      exact h
    obtain ⟨b, hb, hrb⟩ := rep_blob hB hi
    refine ⟨b, hb, ?_⟩
    intro p
    rw [make_objectwise_get_of_bg hbg h]
    rw [decide_eq_true_eq]
    exact label_iff_blob hB hi hb hrb p
  · intro b hb
    obtain ⟨r, hrb, hrep⟩ := blob_rep_exists hB hb
    obtain ⟨⟨i, hi⟩, hget⟩ := List.mem_iff_get.mp (mem_reps.mpr hrep)
    have h : i < (make_objectwise_mask m H W).length := by
      rw [make_objectwise_length_of_bg hbg]
      exact hi
    refine ⟨i, h, ?_⟩
    intro p
    rw [make_objectwise_get_of_bg hbg h]
    rw [decide_eq_true_eq]
    exact label_iff_blob hB hi hb (hget ▸ hrb) p
  · intro r c hr hc
    constructor
    · intro hm
      have hfg : fgP m H W (r, c) := ⟨hr, hc, hm⟩
      obtain ⟨i, hi, heq, _⟩ := labelOf_eq hfg
      have h : i < (make_objectwise_mask m H W).length := by
        rw [make_objectwise_length_of_bg hbg]
        exact hi
      refine ⟨i, h, ?_⟩
      rw [make_objectwise_get_of_bg hbg h]
      exact decide_eq_true heq
    · rintro ⟨i, h, hmask⟩
      rw [make_objectwise_get_of_bg hbg h] at hmask
      have heq := of_decide_eq_true hmask
      have hfg : fgP m H W (r, c) := by
        by_contra hnfg
        rw [labelOf_of_not_fg hnfg] at heq
        exact Nat.succ_ne_zero i heq.symm
      exact hfg.2.2

end ObjectwiseSpec

/-! ## Helper lemmas for the claim theorems -/

theorem foldl_min_le_foldl_max (f : Pix → ℕ) :
    ∀ (l : List Pix) (a b : ℕ), a ≤ b →
      l.foldl (fun x q => min x (f q)) a ≤ l.foldl (fun x q => max x (f q)) b := by
  intro l
  induction l with
  | nil => intro a b hab; exact hab
  | cons q l ih =>
      intro a b hab
      exact ih _ _ (le_trans (min_le_left _ _) (le_trans hab (le_max_left _ _)))

theorem masked_paste_apply (background : Img3) (image_cropped : ℕ → ℕ → ℕ → ℤ)
    (mask_cropped : Mask) (top left h w ch r c : ℕ) :
    (masked_paste background image_cropped mask_cropped top left h w).data ch r c =
      if top ≤ r ∧ r < top + h ∧ left ≤ c ∧ c < left + w ∧
          mask_cropped (r - top) (c - left) = true
      then image_cropped ch (r - top) (c - left)
      else background.data ch r c := rfl

theorem random_place_fst (background : Img3) (image_cropped : ℕ → ℕ → ℕ → ℤ)
    (mask_cropped : Mask) (h w top left : ℕ) :
    (random_place background image_cropped mask_cropped h w top left).1 =
      masked_paste background image_cropped mask_cropped top left h w := rfl

/-! ## Claim C2 -/

/-- C2 (confirmed): after the paste step of `ForegroundObject.random_place`,
destination pixels inside the pasted rectangle where the rotated mask is
true equal the rotated cropped image at the corresponding offset, and
every other destination pixel keeps its previous value (masked paste, not
a full-rectangle overwrite).  The rotated crop and the sampled offsets are
the explicit parameters. -/
theorem C2_random_place_masked_paste (background : Img3)
    (image_cropped : ℕ → ℕ → ℕ → ℤ) (mask_cropped : Mask) (h w top left : ℕ)
    (hfit_h : top + h ≤ background.H) (hfit_w : left + w ≤ background.W) :
    (∀ ch r c, top ≤ r → r < top + h → left ≤ c → c < left + w →
        mask_cropped (r - top) (c - left) = true →
        ((random_place background image_cropped mask_cropped h w top left).1).data ch r c
          = image_cropped ch (r - top) (c - left)) ∧
    (∀ ch r c,
        ¬ (top ≤ r ∧ r < top + h ∧ left ≤ c ∧ c < left + w ∧
            mask_cropped (r - top) (c - left) = true) →
        ((random_place background image_cropped mask_cropped h w top left).1).data ch r c
          = background.data ch r c) := by
  constructor
  · intro ch r c h1 h2 h3 h4 h5
    rw [random_place_fst, masked_paste_apply, if_pos ⟨h1, h2, h3, h4, h5⟩]
  · intro ch r c hn
    rw [random_place_fst, masked_paste_apply, if_neg hn]

/-- Witness for C2: a concrete 1×3×3 canvas, a 1×1 crop pasted at
offset `(1,1)` with a true mask lands the crop pixel, and an untouched
pixel keeps its value. -/
theorem C2_witness :
    ((random_place ⟨1, 3, 3, fun _ _ _ => 0⟩ (fun _ _ _ => 7)
        (fun r c => decide (r = 0 ∧ c = 0)) 1 1 1 1).1).data 0 1 1 = 7 ∧
    ((random_place ⟨1, 3, 3, fun _ _ _ => 0⟩ (fun _ _ _ => 7)
        (fun r c => decide (r = 0 ∧ c = 0)) 1 1 1 1).1).data 0 0 0 = 0 :=
  ⟨(C2_random_place_masked_paste ⟨1, 3, 3, fun _ _ _ => 0⟩ (fun _ _ _ => 7)
      (fun r c => decide (r = 0 ∧ c = 0)) 1 1 1 1 (by decide) (by decide)).1
      0 1 1 (by decide) (by decide) (by decide) (by decide) (by decide),
   (C2_random_place_masked_paste ⟨1, 3, 3, fun _ _ _ => 0⟩ (fun _ _ _ => 7)
      (fun r c => decide (r = 0 ∧ c = 0)) 1 1 1 1 (by decide) (by decide)).2
      0 0 0 (by decide)⟩

/-! ## Claim C4 -/

/-- C4 (amended): the offset draw of `random_place` fails exactly when the
rotated crop does not fit the *representative image's* extent
(`h ≥ rep_height` or `w ≥ rep_width`), not the destination canvas's; on
success the supports are `[0, rep_height - h)` and `[0, rep_width - w)`,
and whenever the destination canvas is at least as large as the
representative image the masked paste leaves every pixel outside the
canvas extent unchanged. -/
theorem C4_offsets_from_rep_image (rep_height rep_width h w : ℕ) :
    (random_place_offsets rep_height rep_width h w = none ↔
      rep_height ≤ h ∨ rep_width ≤ w) ∧
    (∀ ts ls, random_place_offsets rep_height rep_width h w = some (ts, ls) →
      ts = (List.range (rep_height - h)).map (fun i : ℕ => (i : ℤ)) ∧
      ls = (List.range (rep_width - w)).map (fun i : ℕ => (i : ℤ)) ∧
      (∀ (background : Img3) (image_cropped : ℕ → ℕ → ℕ → ℤ)
          (mask_cropped : Mask),
        rep_height ≤ background.H → rep_width ≤ background.W →
        ∀ top ∈ ts, ∀ lf ∈ ls, ∀ ch r c : ℕ,
          background.H ≤ r ∨ background.W ≤ c →
          ((random_place background image_cropped mask_cropped h w
              top.toNat lf.toNat).1).data ch r c = background.data ch r c)) := by
  unfold random_place_offsets randint_range
  by_cases hH : (0 : ℤ) < (rep_height : ℤ) - (h : ℤ)
  · by_cases hW : (0 : ℤ) < (rep_width : ℤ) - (w : ℤ)
    · rw [if_pos hH, if_pos hW]
      constructor
      · constructor
        · intro hc
          exact absurd hc (by simp)
        · intro hc
          exfalso
          omega
      · intro ts ls heq
        simp only [Option.some.injEq, Prod.mk.injEq] at heq
        obtain ⟨hts, hls⟩ := heq
        have hts' : ts = (List.range (rep_height - h)).map (fun i : ℕ => (i : ℤ)) := by
          rw [← hts]
          have hn : ((rep_height : ℤ) - (h : ℤ) - 0).toNat = rep_height - h := by
            omega
          rw [hn]
          apply List.map_congr_left
          intro i _
          omega
        have hls' : ls = (List.range (rep_width - w)).map (fun i : ℕ => (i : ℤ)) := by
          rw [← hls]
          have hn : ((rep_width : ℤ) - (w : ℤ) - 0).toNat = rep_width - w := by
            omega
          rw [hn]
          apply List.map_congr_left
          intro i _
          omega
        refine ⟨hts', hls', ?_⟩
        intro background image_cropped mask_cropped hbgH hbgW top htop lf hlf
          ch r c hout
        rw [hts'] at htop
        rw [hls'] at hlf
        simp only [List.mem_map, List.mem_range] at htop hlf
        obtain ⟨ti, hti, rfl⟩ := htop
        obtain ⟨li, hli, rfl⟩ := hlf
        rw [random_place_fst, masked_paste_apply, if_neg]
        rintro ⟨ha, hb, hc, hd, _⟩
        omega
    · rw [if_pos hH, if_neg hW]
      constructor
      · constructor
        · intro _
          omega
        · intro _
          rfl
      · intro ts ls heq
        exact Option.noConfusion heq
  · rw [if_neg hH]
    constructor
    · constructor
      · intro _
        omega
      · intro _
        rfl
    · intro ts ls heq
      exact Option.noConfusion heq

/-- Witness for C4: a 5×5 crop fails on a 3×3 rep image; a 2×2 crop on a
4×4 rep image with sampled offsets `(1, 0)` leaves the out-of-canvas row 9
of a 4×4 background untouched. -/
theorem C4_witness :
    random_place_offsets 3 3 5 5 = none ∧
    ((random_place (⟨1, 4, 4, fun _ _ _ => 5⟩ : Img3) (fun _ _ _ => 9)
        (fun _ _ => true) 2 2 ((1 : ℤ)).toNat ((0 : ℤ)).toNat).1).data 0 9 0
      = 5 := by
  constructor
  · exact (C4_offsets_from_rep_image 3 3 5 5).1.mpr (Or.inl (by omega))
  · refine ((C4_offsets_from_rep_image 4 4 2 2).2
      ((List.range 2).map (fun i : ℕ => (i : ℤ)))
      ((List.range 2).map (fun i : ℕ => (i : ℤ))) (by decide)).2.2
      ⟨1, 4, 4, fun _ _ _ => 5⟩ (fun _ _ _ => 9) (fun _ _ => true)
      (by decide) (by decide) 1 (by decide) 0 (by decide) 0 9 0
      (Or.inl (by decide))

/-- C4 counterexample: with a 5×5 destination canvas, a 10×10 rep image
and a rotated crop of height 7 ≥ 5, the claim (offsets bounded by the
destination canvas, failing when the crop exceeds it) demands an explicit
failure, but the offset draw — which only consults the rep image's
10×10 extent — succeeds. -/
theorem C4_counterexample :
    ¬ (random_place_offsets 10 10 7 4 = none ↔ (5 ≤ 7 ∨ 5 ≤ 4)) := by
  intro hIff
  have h2 : random_place_offsets 10 10 7 4 = none := hIff.mpr (Or.inl (by omega))
  have h3 : random_place_offsets 10 10 7 4 ≠ none := by decide
  exact h3 h2

/-! ## Claim C6 -/

/-- C6 (amended): on a mask with at least one true pixel, `get_bbox`
returns a box with `top ≤ bottom` and `left ≤ right`.  Because
`masks_to_boxes` reports *inclusive* extremal indices, the width
`right - left` and height `bottom - top` are only nonnegative, and are 0
for a mask whose true pixels lie in a single column / row. -/
theorem C6_bbox_extent_nonneg (m : Mask) (H W : ℕ)
    (hne : ∃ p : Pix, fgP m H W p) :
    ∃ b : BBox, get_bbox m H W = some b ∧ b.top ≤ b.bottom ∧
      b.left ≤ b.right := by
  obtain ⟨p, hp⟩ := hne
  have hmem : p ∈ truePixels m H W := mem_truePixels.mpr hp
  unfold get_bbox
  rcases htp : truePixels m H W with _ | ⟨q, ps⟩
  · rw [htp] at hmem
    exact absurd hmem (List.not_mem_nil p)
  · exact ⟨_, rfl, foldl_min_le_foldl_max (fun q => q.1) ps q.1 q.1 (Nat.le_refl _),
      foldl_min_le_foldl_max (fun q => q.2) ps q.2 q.2 (Nat.le_refl _)⟩

/-- Witness for C6: the single-pixel mask. -/
theorem C6_witness :
    ∃ b : BBox, get_bbox onePixMask 1 1 = some b ∧ b.top ≤ b.bottom ∧
      b.left ≤ b.right :=
  C6_bbox_extent_nonneg onePixMask 1 1 ⟨(0, 0), by decide⟩

/-- C6 counterexample: on the non-empty single-pixel mask the box is
`{top 0, bottom 0, left 0, right 0}`, so `right - left` and
`bottom - top` are 0, not positive as the claim states. -/
theorem C6_counterexample :
    ¬ (∀ (m : Mask) (H W : ℕ), (∃ p : Pix, fgP m H W p) →
        ∀ b : BBox, get_bbox m H W = some b →
          0 < b.right - b.left ∧ 0 < b.bottom - b.top) := by
  intro hclaim
  have := hclaim onePixMask 1 1 ⟨(0, 0), by decide⟩ ⟨0, 0, 0, 0⟩ (by decide)
  exact absurd this (by decide)

/-! ## Claim C7 -/

/-- C7 (amended): `synthesize` obtains `n_obj` by *truncating* the normal
sample toward zero (Python `int()`, i.e. floor for nonnegative samples and
ceiling for negative ones) — not by rounding — and the placement loop
`range(n_obj)` runs `max(n_obj, 0)` times. -/
theorem C7_synthesize_iterations (x : ℚ) :
    ((synthesize_iterations x : ℤ) = max (synthesize_n_obj x) 0) ∧
    (0 ≤ x → synthesize_n_obj x = ⌊x⌋) ∧
    (x < 0 → synthesize_n_obj x = ⌈x⌉) := by
  refine ⟨?_, ?_, ?_⟩
  · unfold synthesize_iterations py_range
    rw [List.length_range]
    exact Int.toNat_eq_max _
  · intro hx
    unfold synthesize_n_obj py_int
    rw [if_pos hx]
  · intro hx
    unfold synthesize_n_obj py_int
    rw [if_neg (not_le.mpr hx)]

/-- Witness for C7 at the sample 6.6. -/
theorem C7_witness :
    ((synthesize_iterations (33/5 : ℚ) : ℤ) =
      max (synthesize_n_obj (33/5 : ℚ)) 0) ∧
    synthesize_n_obj (33/5 : ℚ) = ⌊(33/5 : ℚ)⌋ :=
  ⟨(C7_synthesize_iterations (33/5 : ℚ)).1,
   (C7_synthesize_iterations (33/5 : ℚ)).2.1 (by norm_num)⟩

/-- C7 counterexample: at the sample 6.6 the loop runs
`int(6.6) = 6` times, while the claim's `max(round(6.6), 0)` is 7. -/
theorem C7_counterexample :
    ((synthesize_iterations (33/5 : ℚ) : ℤ)) ≠ max (round (33/5 : ℚ)) 0 := by
  have h1 : py_int (33/5 : ℚ) = 6 := by
    unfold py_int
    rw [if_pos (by norm_num)]
    rw [Int.floor_eq_iff]
    norm_num
  have h2 : round (33/5 : ℚ) = 7 := by
    rw [round_eq]
    rw [Int.floor_eq_iff]
    norm_num
  unfold synthesize_iterations synthesize_n_obj py_range
  rw [h1, h2]
  norm_num

/-! ## Claim C8 -/

/-- C8 (code bug): `YoloLabel.add(obj=...)` appends the *`bbox` parameter*
— asserted to be `None` in that branch — to `self.dicts` instead of the
object's own box, so a later `to_tensor` crashes on `None['left']`
(`TypeError`); `add(i_class=..., bbox=...)` stores the box and `to_tensor`
produces the `(left, top, right, bottom)` row as the claim states.  The
first conjunct evaluates the failing input, the second the working
convention. -/
theorem C8_obj_add_breaks_to_tensor :
    (YoloLabel.add (YoloLabel.init 100 100)
        (some ⟨0, ⟨2, 4, 4, 6⟩, 10, 10⟩) none none).map
        (fun s => (YoloLabel.to_tensor s, s.bboxes.length, s.dicts)) =
      some (none, 1, [none]) ∧
    (YoloLabel.add (YoloLabel.init 100 100) none (some 0)
        (some ⟨2, 4, 4, 6⟩)).map (fun s => YoloLabel.to_tensor s) =
      some (some [[4, 2, 6, 4]]) :=
  ⟨by decide, by decide⟩

/-! ## Claim C9 -/

theorem buffers_set_image_some {st : Buffers.Store} {rep : Buffers.RepImageRef}
    {t : Img3} {st' : Buffers.Store}
    (hset : Buffers.set_image st rep t = some st') :
    st' = ⟨fun b => if b = rep.buf then { st.bufs rep.buf with data := t.data }
                    else st.bufs b⟩ := by
  unfold Buffers.set_image at hset
  by_cases hc : t.C = (st.bufs rep.buf).C ∧ t.H = (st.bufs rep.buf).H ∧
      t.W = (st.bufs rep.buf).W
  · rw [if_pos hc] at hset
    exact (Option.some.inj hset).symm
  · rw [if_neg hc] at hset
    exact Option.noConfusion hset

theorem read_crop_after_set {st : Buffers.Store} {rep : Buffers.RepImageRef}
    {t : Img3} {st' : Buffers.Store}
    (hset : Buffers.set_image st rep t = some st') (b : BBox) (ch r c : ℕ) :
    Buffers.read st' (Buffers.crop_view rep b) ch r c =
      t.data ch (b.top + r) (b.left + c) := by
  rw [buffers_set_image_some hset]
  simp [Buffers.read, Buffers.crop_view]

/-- C9 (confirmed): `image_cropped` is a view of the rep image's live
buffer, so after `set_image(t)` (same size) every `ForegroundObject`
crop built from that rep image reads exactly `t` restricted to its
bounding box, and a subsequent restore `set_image(orig)` propagates back
to every crop. -/
theorem C9_crop_views_alias (st : Buffers.Store) (rep : Buffers.RepImageRef)
    (t : Img3) (st' : Buffers.Store)
    (hset : Buffers.set_image st rep t = some st') (b : BBox) :
    (∀ ch r c, Buffers.read st' (Buffers.crop_view rep b) ch r c =
        t.data ch (b.top + r) (b.left + c)) ∧
    (∀ (orig : Img3) (st'' : Buffers.Store),
        Buffers.set_image st' rep orig = some st'' →
        ∀ ch r c, Buffers.read st'' (Buffers.crop_view rep b) ch r c =
          orig.data ch (b.top + r) (b.left + c)) :=
  ⟨fun ch r c => read_crop_after_set hset b ch r c,
   fun orig st'' hset2 ch r c => read_crop_after_set hset2 b ch r c⟩

/-- Witness for C9: installing `w9img` into the buffer makes the crop at
box `{top 1, bottom 2, left 1, right 2}` read `w9img` offset by `(1,1)`. -/
theorem C9_witness :
    Buffers.read w9store' (Buffers.crop_view ⟨0⟩ ⟨1, 2, 1, 2⟩) 0 0 0 =
      w9img.data 0 (1 + 0) (1 + 0) :=
  (C9_crop_views_alias w9store ⟨0⟩ w9img w9store' rfl ⟨1, 2, 1, 2⟩).1 0 0 0

/-! ## Claim C3 -/

theorem rep_set_image_some {s : RepState} {t : List ℤ} {s' : RepState}
    (h : RepImage.set_image s t = some s') :
    s' = { s with image := t } ∧ t.length = s.image.length := by
  unfold RepImage.set_image at h
  by_cases hc : t.length = s.image.length
  · rw [if_pos hc] at h
    exact ⟨(Option.some.inj h).symm, hc⟩
  · rw [if_neg hc] at h
    exact Option.noConfusion h

theorem finally_restore_image {s : RepState}
    (h : s.orig_image.length = s.image.length) :
    (RepImage.finally_restore s).1.image = s.orig_image := by
  unfold RepImage.finally_restore RepImage.set_image
  rw [if_pos h]

theorem set_image_all_ok :
    ∀ (rs : List RepState) (ts : List (List ℤ)),
      ts.map List.length = rs.map (fun rr => rr.image.length) →
      FieldVideo.set_image_all rs ts =
        (List.zipWith (fun rr t => { rr with image := t }) rs ts, false) := by
  intro rs
  induction rs with
  | nil =>
      intro ts hlen
      have hts : ts = [] := by
        have := congrArg List.length hlen
        simp at this
        exact this
      subst hts
      rfl
  | cons r rs ih =>
      intro ts hlen
      cases ts with
      | nil => exact absurd hlen (by simp)
      | cons t ts' =>
          simp only [List.map_cons, List.cons.injEq] at hlen
          obtain ⟨h1, h2⟩ := hlen
          unfold FieldVideo.set_image_all
          rw [show RepImage.set_image r t = some { r with image := t } from by
            unfold RepImage.set_image; rw [if_pos h1]]
          rw [ih ts' h2]
          rfl

theorem zipWith_set_image :
    ∀ (rs : List RepState) (ts : List (List ℤ)), ts.length = rs.length →
      (List.zipWith (fun rr t => { rr with image := t }) rs ts).map
        (fun rr => rr.image) = ts := by
  intro rs
  induction rs with
  | nil =>
      intro ts hlen
      rw [List.eq_nil_of_length_eq_zero hlen]
      rfl
  | cons r rs ih =>
      intro ts hlen
      cases ts with
      | nil => simp at hlen
      | cons t ts' =>
          simp only [List.length_cons, Nat.succ.injEq] at hlen
          simp only [List.zipWith_cons_cons, List.map_cons]
          rw [ih ts' hlen]

theorem zipWith_set_image_len :
    ∀ (rs : List RepState) (ts : List (List ℤ)), ts.length = rs.length →
      (List.zipWith (fun rr t => { rr with image := t }) rs ts).map
        (fun rr => rr.image.length) = ts.map List.length := by
  intro rs
  induction rs with
  | nil =>
      intro ts hlen
      rw [List.eq_nil_of_length_eq_zero hlen]
      rfl
  | cons r rs ih =>
      intro ts hlen
      cases ts with
      | nil => simp at hlen
      | cons t ts' =>
          simp only [List.length_cons, Nat.succ.injEq] at hlen
          simp only [List.zipWith_cons_cons, List.map_cons]
          rw [ih ts' hlen]

/-- C3 (amended): every `image_as` / `rep_images_as` block — whether the
caller body completes normally or raises — leaves the target image(s)
equal to the preserved pristine copy (`orig_image` / `orig_images`); this
coincides with the state immediately before the block whenever the target
was in its pristine state at entry, but a target modified before entry
(e.g. by a nested substitution) is restored to the pristine copy, not to
its pre-block contents. -/
theorem C3_scoped_substitution_restores :
    (∀ (s : RepState) (tmp_image : List ℤ) (body : RepState → RepState × Bool),
      s.orig_image.length = s.image.length →
      (∀ s', ((body s').1).orig_image = s'.orig_image) →
      (∀ s', ((body s').1).image.length = s'.image.length) →
      ((RepImage.image_as s tmp_image body).1).image = s.orig_image) ∧
    (∀ (fv : FVState) (tmp_images : List (List ℤ))
        (body : FVState → FVState × Bool),
      fv.orig_images.map List.length =
        fv.rep_images.map (fun rr => rr.image.length) →
      tmp_images.map List.length =
        fv.rep_images.map (fun rr => rr.image.length) →
      (∀ s', ((body s').1).orig_images = s'.orig_images) →
      (∀ s', ((body s').1).rep_images.map (fun rr => rr.image.length) =
        s'.rep_images.map (fun rr => rr.image.length)) →
      ((FieldVideo.rep_images_as fv tmp_images body).1).rep_images.map
        (fun rr => rr.image) = fv.orig_images) := by
  constructor
  · intro s tmp body hlen hbodyo hbodyl
    unfold RepImage.image_as
    cases hset : RepImage.set_image s tmp with
    | none => exact finally_restore_image hlen
    | some s0 =>
        obtain ⟨rfl, hlen0⟩ := rep_set_image_some hset
        show (RepImage.finally_restore (body { s with image := tmp }).1).1.image
          = s.orig_image
        have h1 : ((body { s with image := tmp }).1).orig_image = s.orig_image :=
          hbodyo _
        have h2 : ((body { s with image := tmp }).1).image.length = tmp.length :=
          hbodyl _
        have h3 : ((body { s with image := tmp }).1).orig_image.length =
            ((body { s with image := tmp }).1).image.length := by
          rw [h1, h2, hlen0]
          exact hlen
        rw [finally_restore_image h3]
        exact h1
  · intro fv tmps body horig htmp hbodyo hbodyl
    have hlen1 : tmps.length = fv.orig_images.length := by
      have e1 := congrArg List.length horig
      have e2 := congrArg List.length htmp
      simp only [List.length_map] at e1 e2
      omega
    have hlen2 : tmps.length = fv.rep_images.length := by
      have e2 := congrArg List.length htmp
      simp only [List.length_map] at e2
      exact e2
    unfold FieldVideo.rep_images_as
    rw [if_pos hlen1, set_image_all_ok fv.rep_images tmps htmp]
    show ((FieldVideo.set_image_all
        (body ⟨List.zipWith (fun rr t => { rr with image := t })
          fv.rep_images tmps, fv.orig_images⟩).1.rep_images
        (body ⟨List.zipWith (fun rr t => { rr with image := t })
          fv.rep_images tmps, fv.orig_images⟩).1.orig_images).1 :
      List RepState).map (fun rr => rr.image) =
      fv.orig_images
    set fv1 : FVState := ⟨List.zipWith (fun rr t => { rr with image := t })
      fv.rep_images tmps, fv.orig_images⟩ with hfv1
    have hborig : (body fv1).1.orig_images = fv.orig_images := by
      rw [hbodyo fv1]
    have hblen : (body fv1).1.rep_images.map (fun rr => rr.image.length) =
        tmps.map List.length := by
      rw [hbodyl fv1, hfv1]
      exact zipWith_set_image_len fv.rep_images tmps hlen2
    have hrestore : (body fv1).1.orig_images.map List.length =
        (body fv1).1.rep_images.map (fun rr => rr.image.length) := by
      rw [hborig, hblen, horig, htmp]
    rw [hborig, set_image_all_ok _ _ (by rw [← hborig]; exact hrestore)]
    apply zipWith_set_image
    have hle := congrArg List.length hrestore
    simp only [List.length_map] at hle
    rw [← hle, hborig]

/-- Witness for C3: a normally-completing single-image block and a raising
list block both restore the pristine contents. -/
theorem C3_witness :
    ((RepImage.image_as ⟨[7], [7]⟩ [9] (fun s => (s, true))).1).image = [7] ∧
    ((FieldVideo.rep_images_as ⟨[⟨[1], [1]⟩], [[1]]⟩ [[2]]
        (fun s => (s, true))).1).rep_images.map (fun rr => rr.image) = [[1]] :=
  ⟨C3_scoped_substitution_restores.1 ⟨[7], [7]⟩ [9] (fun s => (s, true))
      rfl (fun s' => rfl) (fun s' => rfl),
   C3_scoped_substitution_restores.2 ⟨[⟨[1], [1]⟩], [[1]]⟩ [[2]]
      (fun s => (s, true)) rfl rfl (fun s' => rfl) (fun s' => rfl)⟩

/-- C3 counterexample: if the live image (here `[1]`) differs from the
pristine copy (`[2]`) when the block is entered, the exit restores the
pristine copy, so the image after the block is *not* bit-identical to its
state immediately before the block. -/
theorem C3_counterexample :
    ((RepImage.image_as ⟨[1], [2]⟩ [3] (fun s => (s, false))).1).image ≠ [1] := by
  decide

/-! ## Claim C5 -/

/-- C5 (amended): for a class plane whose foreground splits into `k`
pairwise-disjoint, mutually non-adjacent, internally connected
**8-connected** blobs (the connectivity actually used by
`skimage.measure.label`'s 2-D default — not the 4-connectivity named by
the claim) and which contains at least one background pixel,
`make_objectwise_mask` returns exactly `k` object masks, each mask's
pixel set is exactly one blob, every blob is some mask, and the union of
the masks is the original plane; `k = 0` (an all-false plane) yields the
empty list. -/
theorem C5_component_decomposition (m : Mask) (H W : ℕ)
    (B : List (Finset Pix)) (hB : BlobDecomp m H W B)
    (hbg : ∃ p : Pix, p.1 < H ∧ p.2 < W ∧ m p.1 p.2 = false) :
    (make_objectwise_mask m H W).length = B.length ∧
    (∀ i (h : i < (make_objectwise_mask m H W).length), ∃ b ∈ B, ∀ p : Pix,
        ((make_objectwise_mask m H W).get ⟨i, h⟩) p.1 p.2 = true ↔ p ∈ b) ∧
    (∀ b ∈ B, ∃ i, ∃ h : i < (make_objectwise_mask m H W).length, ∀ p : Pix,
        ((make_objectwise_mask m H W).get ⟨i, h⟩) p.1 p.2 = true ↔ p ∈ b) ∧
    (∀ r c : ℕ, r < H → c < W →
        (m r c = true ↔ ∃ i, ∃ h : i < (make_objectwise_mask m H W).length,
          ((make_objectwise_mask m H W).get ⟨i, h⟩) r c = true)) :=
  objectwise_blob_spec hB hbg

/-- Witness for C5: a 2×2 plane with the single blob `{(0,0)}` decomposes
into one object mask. -/
theorem C5_witness : (make_objectwise_mask onePixMask 2 2).length = 1 := by
  have hB : BlobDecomp onePixMask 2 2 [{(0, 0)}] := by
    refine ⟨?_, ?_, ?_, ?_, ?_, ?_⟩
    · intro b hb p hp
      simp only [List.mem_singleton] at hb
      subst hb
      rw [Finset.mem_singleton] at hp
      subst hp
      decide
    · intro b hb
      simp only [List.mem_singleton] at hb
      subst hb
      exact ⟨(0, 0), Finset.mem_singleton_self _⟩
    · intro p hp
      refine ⟨{(0, 0)}, List.mem_singleton_self _, ?_⟩
      obtain ⟨h1, h2, h3⟩ := hp
      have h4 : p.1 = 0 ∧ p.2 = 0 := of_decide_eq_true h3
      rw [Finset.mem_singleton]
      exact Prod.ext h4.1 h4.2
    · intro b hb p hp q hq
      simp only [List.mem_singleton] at hb
      subst hb
      rw [Finset.mem_singleton] at hp hq
      subst hp
      subst hq
      exact Relation.ReflTransGen.refl
    · exact List.pairwise_singleton _ _
    · exact List.pairwise_singleton _ _
  have hlen := (C5_component_decomposition onePixMask 2 2 [{(0, 0)}] hB
    ⟨(0, 1), by decide, by decide, by decide⟩).1
  simpa using hlen

/-- C5 counterexample: the 2×2 diagonal plane consists of the two
pairwise-disjoint, non-4-adjacent, 4-connected blobs `{(0,0)}` and
`{(1,1)}` (`k = 2`), yet `make_objectwise_mask` — 8-connectivity —
merges them and returns a single object mask. -/
theorem C5_counterexample :
    diagMask 0 0 = true ∧ diagMask 1 1 = true ∧ diagMask 0 1 = false ∧
    diagMask 1 0 = false ∧ ¬ adj4P (0, 0) (1, 1) ∧
    (make_objectwise_mask diagMask 2 2).length = 1 := by
  refine ⟨by decide, by decide, by decide, by decide, by decide, by decide⟩

/-! ## Claim C10 -/

/-- C10 (confirmed): a class plane whose pixels are all true yields zero
object masks: the plane is a single 8-connected component, it receives
the only label 1, and `np.unique(...)[1:]` — intended to drop background
label 0, which does not occur — drops that only label instead. -/
theorem C10_all_true_plane_empty (H W : ℕ) (hH : 1 ≤ H) (hW : 1 ≤ W) :
    make_objectwise_mask (fun _ _ => true) H W = [] := by
  have hfg : ∀ p : Pix, p.1 < H → p.2 < W → fgP (fun _ _ => true) H W p :=
    fun p h1 h2 => ⟨h1, h2, rfl⟩
  have hall_eq : ∀ r1 ∈ reps (fun _ _ => true) H W,
      ∀ r2 ∈ reps (fun _ _ => true) H W, r1 = r2 := by
    intro r1 h1 r2 h2
    have hrep1 := mem_reps.mp h1
    have hrep2 := mem_reps.mp h2
    have hreach : Reaches (fun _ _ => true) H W r1 r2 := by
      apply rect_connected 0 H 0 W
      · intro p _ hpH _ hpW
        exact hfg p hpH hpW
      · exact ⟨Nat.zero_le _, hrep1.1.1, Nat.zero_le _, hrep1.1.2.1⟩
      · exact ⟨Nat.zero_le _, hrep2.1.1, Nat.zero_le _, hrep2.1.2.1⟩
    exact rep_unique hrep1 hrep2 ((mem_reachSet hrep1.1).mpr hreach)
      (reachSet_self hrep2.1)
  have hlen : (reps (fun _ _ => true) H W).length = 1 := by
    cases hreps : reps (fun _ _ => true) H W with
    | nil =>
        exfalso
        obtain ⟨r, hrep, _⟩ := exists_rep (hfg (0, 0) hH hW)
        have hmem : r ∈ reps (fun _ _ => true) H W := mem_reps.mpr hrep
        rw [hreps] at hmem
        exact List.not_mem_nil r hmem
    | cons r rs =>
        cases rs with
        | nil => rfl
        | cons r2 rs2 =>
            exfalso
            have hmem1 : r ∈ reps (fun _ _ => true) H W := by
              rw [hreps]
              exact List.mem_cons_self _ _
            have hmem2 : r2 ∈ reps (fun _ _ => true) H W := by
              rw [hreps]
              exact List.mem_cons_of_mem _ (List.mem_cons_self _ _)
            have hEq : r = r2 := hall_eq r hmem1 r2 hmem2
            have hnd : (reps (fun _ _ => true) H W).Nodup := reps_nodup
            rw [hreps, List.nodup_cons] at hnd
            exact hnd.1 (hEq ▸ List.mem_cons_self r2 rs2)
  have hpres : presentLabels (fun _ _ => true) H W = [1] := by
    unfold presentLabels
    rw [hlen]
    have h0 : ¬ ∃ p ∈ rasterPix H W, labelOf (fun _ _ => true) H W p = 0 := by
      rintro ⟨p, hp, hlab⟩
      have hin := mem_rasterPix.mp hp
      exact labelOf_ne_zero (hfg p hin.1 hin.2) hlab
    have h1lt : 0 < (reps (fun _ _ => true) H W).length := by omega
    have h1 : ∃ p ∈ rasterPix H W, labelOf (fun _ _ => true) H W p = 1 := by
      refine ⟨(reps (fun _ _ => true) H W).get ⟨0, h1lt⟩, ?_, labelOf_rep h1lt⟩
      have hrep := mem_reps.mp
        (List.get_mem (reps (fun _ _ => true) H W) 0 h1lt)
      exact mem_rasterPix.mpr ⟨hrep.1.1, hrep.1.2.1⟩
    have hr2 : List.range (1 + 1) = [0, 1] := rfl
    rw [hr2, List.filter_cons, List.filter_cons, List.filter_nil]
    rw [decide_eq_false h0, decide_eq_true h1]
    rfl
  unfold make_objectwise_mask
  rw [hpres]
  rfl

/-- Witness for C10 at the 1×1 all-true plane. -/
theorem C10_witness : make_objectwise_mask (fun _ _ => true) 1 1 = [] :=
  C10_all_true_plane_empty 1 1 (by decide) (by decide)

/-! ## Claim C1 -/

/-- C1 (amended): the 10×10 single-class mask true exactly on rows `[2,5)`
and columns `[4,7)` decomposes to one object; its tight box as computed by
`get_bbox` is the *inclusive* `{top 2, bottom 4, left 4, right 6}`
(`masks_to_boxes` reports maximal indices, not the exclusive 5/7 of the
claim), and `bbox_to_yolo` of that box at width = height = 10 is
`(0.5, 0.3, 0.2, 0.2)`. -/
theorem C1_concrete_scenario :
    ∃ m0 : Mask, make_objectwise_mask c1mask 10 10 = [m0] ∧
      get_bbox m0 10 10 = some ⟨2, 4, 4, 6⟩ ∧
      bbox_to_yolo ⟨2, 4, 4, 6⟩ 10 10 = (1/2, 3/10, 1/5, 1/5) := by
  have hB : BlobDecomp c1mask 10 10 [Finset.Ico 2 5 ×ˢ Finset.Ico 4 7] := by
    refine ⟨?_, ?_, ?_, ?_, ?_, ?_⟩
    · intro b hb p hp
      simp only [List.mem_singleton] at hb
      subst hb
      rw [Finset.mem_product, Finset.mem_Ico, Finset.mem_Ico] at hp
      refine ⟨by omega, by omega, ?_⟩
      show decide (2 ≤ p.1 ∧ p.1 < 5 ∧ 4 ≤ p.2 ∧ p.2 < 7) = true
      exact decide_eq_true (by omega)
    · intro b hb
      simp only [List.mem_singleton] at hb
      subst hb
      refine ⟨(2, 4), ?_⟩
      rw [Finset.mem_product, Finset.mem_Ico, Finset.mem_Ico]
      omega
    · intro p hp
      refine ⟨_, List.mem_singleton_self _, ?_⟩
      obtain ⟨h1, h2, h3⟩ := hp
      have h3' : decide (2 ≤ p.1 ∧ p.1 < 5 ∧ 4 ≤ p.2 ∧ p.2 < 7) = true := h3
      have h4 := of_decide_eq_true h3'
      rw [Finset.mem_product, Finset.mem_Ico, Finset.mem_Ico]
      exact ⟨⟨h4.1, h4.2.1⟩, h4.2.2⟩
    · intro b hb p hp q hq
      simp only [List.mem_singleton] at hb
      subst hb
      rw [Finset.mem_product, Finset.mem_Ico, Finset.mem_Ico] at hp hq
      apply rect_connected 2 5 4 7
      · intro x hx1 hx2 hx3 hx4
        refine ⟨by omega, by omega, ?_⟩
        show decide (2 ≤ x.1 ∧ x.1 < 5 ∧ 4 ≤ x.2 ∧ x.2 < 7) = true
        exact decide_eq_true (by omega)
      · exact ⟨hp.1.1, hp.1.2, hp.2.1, hp.2.2⟩
      · exact ⟨hq.1.1, hq.1.2, hq.2.1, hq.2.2⟩
    · exact List.pairwise_singleton _ _
    · exact List.pairwise_singleton _ _
  obtain ⟨hlen, hmask, _, _⟩ := objectwise_blob_spec hB
    ⟨(0, 0), by decide, by decide, by decide⟩
  obtain ⟨m0, hm0⟩ := List.length_eq_one.mp (by simpa using hlen)
  have hp0 : 0 < (make_objectwise_mask c1mask 10 10).length := by
    rw [hm0]
    exact Nat.one_pos
  obtain ⟨b, hbmem, hiff⟩ := hmask 0 hp0
  simp only [List.mem_singleton] at hbmem
  subst hbmem
  have hg : (make_objectwise_mask c1mask 10 10).get ⟨0, hp0⟩ = m0 := by
    rw [List.get_of_eq hm0]
    rfl
  rw [hg] at hiff
  have hpix : ∀ p ∈ rasterPix 10 10, m0 p.1 p.2 = c1mask p.1 p.2 := by
    intro p _
    have hiffp := hiff p
    have hc1 : c1mask p.1 p.2 = true ↔
        p ∈ Finset.Ico 2 5 ×ˢ Finset.Ico 4 7 := by
      show decide (2 ≤ p.1 ∧ p.1 < 5 ∧ 4 ≤ p.2 ∧ p.2 < 7) = true ↔ _
      rw [decide_eq_true_eq, Finset.mem_product, Finset.mem_Ico,
        Finset.mem_Ico]
      constructor
      · rintro ⟨a, b2, c, d⟩
        exact ⟨⟨a, b2⟩, c, d⟩
      · rintro ⟨⟨a, b2⟩, c, d⟩
        exact ⟨a, b2, c, d⟩
    have hiff2 : m0 p.1 p.2 = true ↔ c1mask p.1 p.2 = true :=
      hiffp.trans hc1.symm
    cases hm : m0 p.1 p.2 with
    | false =>
        cases hcc : c1mask p.1 p.2 with
        | false => rfl
        | true =>
            exfalso
            have hcontra := hiff2.mpr hcc
            rw [hm] at hcontra
            exact Bool.noConfusion hcontra
    | true =>
        cases hcc : c1mask p.1 p.2 with
        | true => rfl
        | false =>
            exfalso
            have hcontra := hiff2.mp hm
            rw [hcc] at hcontra
            exact Bool.noConfusion hcontra
  have htp : truePixels m0 10 10 = truePixels c1mask 10 10 :=
    List.filter_congr (fun p hp => hpix p hp)
  have hbbox : get_bbox m0 10 10 = get_bbox c1mask 10 10 := by
    unfold get_bbox
    rw [htp]
  refine ⟨m0, hm0, ?_, ?_⟩
  · rw [hbbox]
    decide
  · unfold bbox_to_yolo
    norm_num

/-- C1 counterexample: `get_bbox` on the concrete mask reports the
inclusive box `{top 2, bottom 4, left 4, right 6}`, not the claim's
`{top 2, bottom 5, left 4, right 7}` (whose yolo encoding 0.55/0.35/0.3
the claim derives). -/
theorem C1_counterexample : get_bbox c1mask 10 10 ≠ some ⟨2, 5, 4, 7⟩ := by
  decide
